import Mathlib

/-!
Verification of the synthetic market maker's order book core
(`synthetic_market_maker.py`): the `Order` entity, the `OrderBook` with
`place_order` and `match_orders`, and the reference (mid) price update.

Prices and sizes are embedded as rationals (`ℚ`): exact arithmetic standing
in for the source's real-number arithmetic.  Python's stable `list.sort`
with a price key is embedded as `List.mergeSort` (stable) on a Boolean
price comparison; the `while` matching loop is embedded as a well-founded
recursion whose measure is the total number of resting orders.
-/

namespace SyntheticMarket

/-- The side tag of an order: `"buy"` or `"sell"` in the source. -/
inductive Side where
  | buy : Side
  | sell : Side
deriving DecidableEq, Repr

/-- `Order(price, size, side)`: a single resting order (source lines 5-11). -/
structure Order where
  price : ℚ
  size : ℚ
  side : Side
deriving DecidableEq, Repr

/-- A trade record `{"price": …, "size": …}` emitted by `match_orders`. -/
structure Trade where
  price : ℚ
  size : ℚ
deriving DecidableEq, Repr

/-- `OrderBook`: resting buys, resting sells, and the current mid price. -/
structure OrderBook where
  buys : List Order
  sells : List Order
  mid_price : ℚ
deriving DecidableEq, Repr

/-- `OrderBook.__init__`: empty book, `mid_price = 100.0` (lines 18-21). -/
def OrderBook.init : OrderBook :=
  { buys := [], sells := [], mid_price := 100 }

/-- The sort key for buys: `sort(key=lambda o: -o.price)`, i.e. a stable
sort into descending price order (line 26). -/
def buyLE (a b : Order) : Bool :=
  decide (b.price ≤ a.price)

/-- The sort key for sells: `sort(key=lambda o: o.price)`, i.e. a stable
sort into ascending price order (line 29). -/
def sellLE (a b : Order) : Bool :=
  decide (a.price ≤ b.price)

/-- `OrderBook.place_order` (lines 23-29): append the order to its side's
list, then re-sort that list stably by price. -/
def place_order (b : OrderBook) (o : Order) : OrderBook :=
  match o.side with
  | Side.buy => { b with buys := (b.buys ++ [o]).mergeSort buyLE }
  | Side.sell => { b with sells := (b.sells ++ [o]).mergeSort sellLE }

/-- One iteration of the `while` loop of `match_orders` (lines 33-42), as a
function on the pair (buys, sells): if both sides are non-empty and the best
bid's price is at least the best ask's price, decrement both front orders by
`min` of their sizes and drop any front order whose new size is `≤ 0`;
otherwise leave the pair unchanged. -/
def loopStep : List Order × List Order → List Order × List Order
  | (bb :: bs, ss :: sl) =>
    if ss.price ≤ bb.price then
      ((if bb.size - min bb.size ss.size ≤ 0 then bs
        else { bb with size := bb.size - min bb.size ss.size } :: bs),
       (if ss.size - min bb.size ss.size ≤ 0 then sl
        else { ss with size := ss.size - min bb.size ss.size } :: sl))
    else (bb :: bs, ss :: sl)
  | p => p

/-- After decrementing both front orders by the matched quantity
`min bb.size ss.size`, at least one of them has size `≤ 0`, hence at least
one front order is removed in every loop iteration. -/
lemma sub_min_left_right (x y : ℚ) : x - min x y ≤ 0 ∨ y - min x y ≤ 0 := by
  rcases le_total x y with h | h
  · exact Or.inl (by rw [min_eq_left h]; simp)
  · exact Or.inr (by rw [min_eq_right h]; simp)

/-- The `while` loop of `match_orders` (lines 32-42): returns the final
buys, the final sells, and the list of trades in emission order.  (The
source appends each trade to a growing list; consing onto the trades of the
recursive call produces the same list.) -/
def match_orders_aux : List Order → List Order → List Order × List Order × List Trade
  | bb :: bs, ss :: sl =>
    if ss.price ≤ bb.price then
      let r := match_orders_aux
        (if bb.size - min bb.size ss.size ≤ 0 then bs
         else { bb with size := bb.size - min bb.size ss.size } :: bs)
        (if ss.size - min bb.size ss.size ≤ 0 then sl
         else { ss with size := ss.size - min bb.size ss.size } :: sl)
      (r.1, r.2.1, { price := (bb.price + ss.price) / 2, size := min bb.size ss.size } :: r.2.2)
    else (bb :: bs, ss :: sl, [])
  | buys, sells => (buys, sells, [])
termination_by buys sells => buys.length + sells.length
decreasing_by
  have key := sub_min_left_right bb.size ss.size
  split
  · split
    · simp only [List.length_cons]
      omega
    · simp only [List.length_cons]
      omega
  · split
    · simp only [List.length_cons]
      omega
    · rename_i h1 h2
      exact absurd key (not_or.mpr ⟨h1, h2⟩)

/-- `OrderBook.match_orders` (lines 31-46): run the matching loop, then if
any trades occurred set `mid_price` to the arithmetic mean of their prices;
return the new book and the trades. -/
def match_orders (b : OrderBook) : OrderBook × List Trade :=
  let r := match_orders_aux b.buys b.sells
  ({ buys := r.1, sells := r.2.1,
     mid_price :=
       if r.2.2 = [] then b.mid_price
       else (r.2.2.map Trade.price).sum / (r.2.2.length : ℚ) },
   r.2.2)

/-- `Order.__init__`'s side check (line 8): building an order with a side
string outside `{"buy", "sell"}` fails the assertion; any price and size
are accepted unchecked. -/
def mkOrder (price size : ℚ) (side : String) : Except String Order :=
  if side = "buy" then Except.ok { price := price, size := size, side := Side.buy }
  else if side = "sell" then Except.ok { price := price, size := size, side := Side.sell }
  else Except.error "side must be buy or sell"

/-- An externally observable call on the book: a `place_order` or a
`match_orders`. -/
inductive Event where
  | placeEv : Order → Event
  | matchEv : Event

/-- Apply one call to the book (trades returned by `match_orders` are
dropped; only the book state is tracked). -/
def applyEvent (b : OrderBook) : Event → OrderBook
  | Event.placeEv o => place_order b o
  | Event.matchEv => (match_orders b).1

/-- Apply a sequence of calls to the book, in order. -/
def applyEvents (es : List Event) (b : OrderBook) : OrderBook :=
  es.foldl applyEvent b

/-- The book is crossed: both sides non-empty and best bid price ≥ best ask
price (the loop guard, line 33). -/
def crossedB (buys sells : List Order) : Bool :=
  match buys, sells with
  | bb :: _, ss :: _ => decide (ss.price ≤ bb.price)
  | _, _ => false

/-- Total resting size of a side. -/
def sumSizes (l : List Order) : ℚ :=
  (l.map Order.size).sum

/-- Total size of a list of trades. -/
def tradeSizeSum (ts : List Trade) : ℚ :=
  (ts.map Trade.size).sum

/-- Bids sorted by descending price (ties allowed). -/
def buysSorted (l : List Order) : Prop :=
  l.Pairwise (fun a b => b.price ≤ a.price)

/-- Asks sorted by ascending price (ties allowed). -/
def sellsSorted (l : List Order) : Prop :=
  l.Pairwise (fun a b => a.price ≤ b.price)

/-- Both sides of the book are price-sorted. -/
def sortedBook (b : OrderBook) : Prop :=
  buysSorted b.buys ∧ sellsSorted b.sells

/-! ### Unfolding lemmas for the matching loop -/

lemma match_orders_aux_cross {bb ss : Order} (bs sl : List Order)
    (h : ss.price ≤ bb.price) :
    match_orders_aux (bb :: bs) (ss :: sl) =
      ((match_orders_aux
          (if bb.size - min bb.size ss.size ≤ 0 then bs
           else { bb with size := bb.size - min bb.size ss.size } :: bs)
          (if ss.size - min bb.size ss.size ≤ 0 then sl
           else { ss with size := ss.size - min bb.size ss.size } :: sl)).1,
       (match_orders_aux
          (if bb.size - min bb.size ss.size ≤ 0 then bs
           else { bb with size := bb.size - min bb.size ss.size } :: bs)
          (if ss.size - min bb.size ss.size ≤ 0 then sl
           else { ss with size := ss.size - min bb.size ss.size } :: sl)).2.1,
       { price := (bb.price + ss.price) / 2, size := min bb.size ss.size } ::
         (match_orders_aux
          (if bb.size - min bb.size ss.size ≤ 0 then bs
           else { bb with size := bb.size - min bb.size ss.size } :: bs)
          (if ss.size - min bb.size ss.size ≤ 0 then sl
           else { ss with size := ss.size - min bb.size ss.size } :: sl)).2.2) := by
  rw [match_orders_aux.eq_def]
  simp only [if_pos h]

lemma match_orders_aux_no_cross {buys sells : List Order}
    (h : crossedB buys sells = false) :
    match_orders_aux buys sells = (buys, sells, []) := by
  match buys, sells with
  | [], sells => rw [match_orders_aux.eq_def]
  | bb :: bs, [] => rw [match_orders_aux.eq_def]
  | bb :: bs, ss :: sl =>
    simp only [crossedB, decide_eq_false_iff_not] at h
    rw [match_orders_aux.eq_def]
    simp only [if_neg h]

lemma loopStep_cross {bb ss : Order} (bs sl : List Order)
    (h : ss.price ≤ bb.price) :
    loopStep (bb :: bs, ss :: sl) =
      ((if bb.size - min bb.size ss.size ≤ 0 then bs
        else { bb with size := bb.size - min bb.size ss.size } :: bs),
       (if ss.size - min bb.size ss.size ≤ 0 then sl
        else { ss with size := ss.size - min bb.size ss.size } :: sl)) := by
  simp only [loopStep, if_pos h]

lemma crossedB_false_of_no_cons {buys sells : List Order}
    (h : ∀ (bb : Order) (bs : List Order) (ss : Order) (sl : List Order),
      buys = bb :: bs → sells = ss :: sl → False) :
    crossedB buys sells = false := by
  match buys, sells with
  | [], _ => rfl
  | _ :: _, [] => rfl
  | bb :: bs, ss :: sl => exact (h bb bs ss sl rfl rfl).elim

/-! ### The loop ends in a non-crossed book -/

lemma crossedB_match_orders_aux (buys sells : List Order) :
    crossedB (match_orders_aux buys sells).1 (match_orders_aux buys sells).2.1 = false := by
  induction buys, sells using match_orders_aux.induct with
  | case1 bb bs ss sl h ih =>
    rw [match_orders_aux_cross bs sl h]
    simpa using ih
  | case2 bb bs ss sl h =>
    rw [match_orders_aux_no_cross (by simp [crossedB, h])]
    simp [crossedB, h]
  | case3 buys sells h =>
    rw [match_orders_aux_no_cross (crossedB_false_of_no_cons h)]
    exact crossedB_false_of_no_cons h

/-! ### Size conservation through the loop -/

/-- Decrementing the front order by a matched quantity `t ≤ size` and
removing it when its new size is `≤ 0` lowers the side's total size by
exactly `t`. -/
lemma sumSizes_decrement (bb : Order) (bs : List Order) (t : ℚ) (ht : t ≤ bb.size) :
    sumSizes (if bb.size - t ≤ 0 then bs else { bb with size := bb.size - t } :: bs)
      = sumSizes (bb :: bs) - t := by
  split
  · rename_i h
    have hbt : bb.size = t := le_antisymm (by linarith) ht
    simp [sumSizes, hbt]
  · simp [sumSizes]
    ring

lemma sumSizes_match_orders_aux (buys sells : List Order) :
    sumSizes buys
        = sumSizes (match_orders_aux buys sells).1
          + tradeSizeSum (match_orders_aux buys sells).2.2
    ∧ sumSizes sells
        = sumSizes (match_orders_aux buys sells).2.1
          + tradeSizeSum (match_orders_aux buys sells).2.2 := by
  induction buys, sells using match_orders_aux.induct with
  | case1 bb bs ss sl h ih =>
    rw [match_orders_aux_cross bs sl h]
    simp only [dite_eq_ite] at ih
    have hb := sumSizes_decrement bb bs (min bb.size ss.size) (min_le_left _ _)
    have hs := sumSizes_decrement ss sl (min bb.size ss.size) (min_le_right _ _)
    simp only [tradeSizeSum, List.map_cons, List.sum_cons] at ih ⊢
    constructor
    · have := ih.1
      linarith [hb ▸ this]
    · have := ih.2
      linarith [hs ▸ this]
  | case2 bb bs ss sl h =>
    rw [match_orders_aux_no_cross (by simp [crossedB, h])]
    simp [tradeSizeSum]
  | case3 buys sells h =>
    rw [match_orders_aux_no_cross (crossedB_false_of_no_cons h)]
    simp [tradeSizeSum]

/-! ### Each emitted trade comes from the fronts of the book at its moment -/

lemma trades_iterate (buys sells : List Order) :
    ∀ (i : Nat) (tr : Trade),
      (match_orders_aux buys sells).2.2[i]? = some tr →
      ∃ (bb : Order) (bs : List Order) (ss : Order) (sl : List Order),
        loopStep^[i] (buys, sells) = (bb :: bs, ss :: sl) ∧
        ss.price ≤ bb.price ∧
        tr = { price := (bb.price + ss.price) / 2, size := min bb.size ss.size } := by
  induction buys, sells using match_orders_aux.induct with
  | case1 bb bs ss sl h ih =>
    intro i tr htr
    rw [match_orders_aux_cross bs sl h] at htr
    simp only [dite_eq_ite] at ih
    match i with
    | 0 =>
      simp only [List.getElem?_cons_zero, Option.some.injEq] at htr
      exact ⟨bb, bs, ss, sl, rfl, h, htr.symm⟩
    | i + 1 =>
      simp only [List.getElem?_cons_succ] at htr
      obtain ⟨bb', bs', ss', sl', hstep, hc', htr'⟩ := ih i tr htr
      refine ⟨bb', bs', ss', sl', ?_, hc', htr'⟩
      rw [Function.iterate_succ_apply, loopStep_cross bs sl h]
      exact hstep
  | case2 bb bs ss sl h =>
    intro i tr htr
    rw [match_orders_aux_no_cross (by simp [crossedB, h])] at htr
    simp at htr
  | case3 buys sells h =>
    intro i tr htr
    rw [match_orders_aux_no_cross (crossedB_false_of_no_cons h)] at htr
    simp at htr

/-! ### The loop removes at least one order per emitted trade -/

lemma trades_length_match_orders_aux (buys sells : List Order) :
    (match_orders_aux buys sells).2.2.length ≤ buys.length + sells.length := by
  induction buys, sells using match_orders_aux.induct with
  | case1 bb bs ss sl h ih =>
    rw [match_orders_aux_cross bs sl h]
    simp only [dite_eq_ite] at ih
    simp only [List.length_cons]
    have key := sub_min_left_right bb.size ss.size
    rcases key with hk | hk
    · rw [if_pos hk] at ih ⊢
      have : (if ss.size - min bb.size ss.size ≤ 0 then sl
          else { ss with size := ss.size - min bb.size ss.size } :: sl).length
          ≤ sl.length + 1 := by
        split <;> simp
      omega
    · rw [if_pos hk] at ih ⊢
      have : (if bb.size - min bb.size ss.size ≤ 0 then bs
          else { bb with size := bb.size - min bb.size ss.size } :: bs).length
          ≤ bs.length + 1 := by
        split <;> simp
      omega
  | case2 bb bs ss sl h =>
    rw [match_orders_aux_no_cross (by simp [crossedB, h])]
    simp
  | case3 buys sells h =>
    rw [match_orders_aux_no_cross (crossedB_false_of_no_cons h)]
    simp

/-! ### The matching loop preserves price-sortedness of both sides -/

/-- Decrementing the front order's size (a price-preserving update) and
possibly removing it preserves descending-price sortedness of a side. -/
lemma buysSorted_decrement {bb : Order} {bs : List Order} (t : ℚ)
    (h : buysSorted (bb :: bs)) :
    buysSorted (if bb.size - t ≤ 0 then bs
      else { bb with size := bb.size - t } :: bs) := by
  rcases List.pairwise_cons.mp h with ⟨hhead, htail⟩
  split
  · exact htail
  · exact List.pairwise_cons.mpr ⟨fun x hx => hhead x hx, htail⟩

/-- Decrementing the front order's size (a price-preserving update) and
possibly removing it preserves ascending-price sortedness of a side. -/
lemma sellsSorted_decrement {ss : Order} {sl : List Order} (t : ℚ)
    (h : sellsSorted (ss :: sl)) :
    sellsSorted (if ss.size - t ≤ 0 then sl
      else { ss with size := ss.size - t } :: sl) := by
  rcases List.pairwise_cons.mp h with ⟨hhead, htail⟩
  split
  · exact htail
  · exact List.pairwise_cons.mpr ⟨fun x hx => hhead x hx, htail⟩

lemma sorted_match_orders_aux (buys sells : List Order) :
    buysSorted buys → sellsSorted sells →
    buysSorted (match_orders_aux buys sells).1
      ∧ sellsSorted (match_orders_aux buys sells).2.1 := by
  induction buys, sells using match_orders_aux.induct with
  | case1 bb bs ss sl h ih =>
    intro hb hs
    rw [match_orders_aux_cross bs sl h]
    simp only [dite_eq_ite] at ih
    exact ih (buysSorted_decrement _ hb) (sellsSorted_decrement _ hs)
  | case2 bb bs ss sl h =>
    intro hb hs
    rw [match_orders_aux_no_cross (by simp [crossedB, h])]
    exact ⟨hb, hs⟩
  | case3 buys sells h =>
    intro hb hs
    rw [match_orders_aux_no_cross (crossedB_false_of_no_cons h)]
    exact ⟨hb, hs⟩

/-! ### `place_order` sorts its side; the stable sort keeps arrival order
within a price level -/

lemma buyLE_trans (a b c : Order) : buyLE a b → buyLE b c → buyLE a c := by
  simp only [buyLE, decide_eq_true_eq]
  exact fun h1 h2 => le_trans h2 h1

lemma buyLE_total (a b : Order) : buyLE a b || buyLE b a := by
  simp only [buyLE]
  rcases le_total a.price b.price with h | h <;> simp [h]

lemma sellLE_trans (a b c : Order) : sellLE a b → sellLE b c → sellLE a c := by
  simp only [sellLE, decide_eq_true_eq]
  exact fun h1 h2 => le_trans h1 h2

lemma sellLE_total (a b : Order) : sellLE a b || sellLE b a := by
  simp only [sellLE]
  rcases le_total a.price b.price with h | h <;> simp [h]

lemma buysSorted_mergeSort (l : List Order) : buysSorted (l.mergeSort buyLE) := by
  have := List.sorted_mergeSort buyLE_trans buyLE_total l
  exact this.imp (by simp [buyLE])

lemma sellsSorted_mergeSort (l : List Order) : sellsSorted (l.mergeSort sellLE) := by
  have := List.sorted_mergeSort sellLE_trans sellLE_total l
  exact this.imp (by simp [sellLE])

/-- Stability of the buys sort: the subsequence of orders at any fixed
price `p` is unchanged by the sort. -/
lemma mergeSort_buyLE_filter_price (l : List Order) (p : ℚ) :
    (l.mergeSort buyLE).filter (fun x => decide (x.price = p))
      = l.filter (fun x => decide (x.price = p)) := by
  have hc : (l.filter (fun x => decide (x.price = p))).Pairwise
      (fun a b => buyLE a b) := by
    apply List.pairwise_of_forall_mem_list
    intro a ha b hb
    have hap := of_decide_eq_true (List.mem_filter.mp ha).2
    have hbp := of_decide_eq_true (List.mem_filter.mp hb).2
    simp [buyLE, hap, hbp]
  have hsub : List.Sublist (l.filter (fun x => decide (x.price = p))) (l.mergeSort buyLE) :=
    List.sublist_mergeSort buyLE_trans buyLE_total hc (List.filter_sublist l)
  have hsub2 : List.Sublist (l.filter (fun x => decide (x.price = p)))
      ((l.mergeSort buyLE).filter (fun x => decide (x.price = p))) := by
    have heq : (l.filter (fun x => decide (x.price = p))).filter
        (fun x => decide (x.price = p)) = l.filter (fun x => decide (x.price = p)) := by
      apply List.filter_eq_self.mpr
      intro a ha
      exact (List.mem_filter.mp ha).2
    rw [heq.symm]
    exact hsub.filter _
  have hperm : List.Perm ((l.mergeSort buyLE).filter (fun x => decide (x.price = p)))
      (l.filter (fun x => decide (x.price = p))) :=
    (List.mergeSort_perm l buyLE).filter _
  exact (hsub2.eq_of_length hperm.length_eq.symm).symm

/-- Stability of the sells sort: the subsequence of orders at any fixed
price `p` is unchanged by the sort. -/
lemma mergeSort_sellLE_filter_price (l : List Order) (p : ℚ) :
    (l.mergeSort sellLE).filter (fun x => decide (x.price = p))
      = l.filter (fun x => decide (x.price = p)) := by
  have hc : (l.filter (fun x => decide (x.price = p))).Pairwise
      (fun a b => sellLE a b) := by
    apply List.pairwise_of_forall_mem_list
    intro a ha b hb
    have hap := of_decide_eq_true (List.mem_filter.mp ha).2
    have hbp := of_decide_eq_true (List.mem_filter.mp hb).2
    simp [sellLE, hap, hbp]
  have hsub : List.Sublist (l.filter (fun x => decide (x.price = p))) (l.mergeSort sellLE) :=
    List.sublist_mergeSort sellLE_trans sellLE_total hc (List.filter_sublist l)
  have hsub2 : List.Sublist (l.filter (fun x => decide (x.price = p)))
      ((l.mergeSort sellLE).filter (fun x => decide (x.price = p))) := by
    have heq : (l.filter (fun x => decide (x.price = p))).filter
        (fun x => decide (x.price = p)) = l.filter (fun x => decide (x.price = p)) := by
      apply List.filter_eq_self.mpr
      intro a ha
      exact (List.mem_filter.mp ha).2
    rw [heq.symm]
    exact hsub.filter _
  have hperm : List.Perm ((l.mergeSort sellLE).filter (fun x => decide (x.price = p)))
      (l.filter (fun x => decide (x.price = p))) :=
    (List.mergeSort_perm l sellLE).filter _
  exact (hsub2.eq_of_length hperm.length_eq.symm).symm

/-- `place_order` preserves (re-establishes) price-sortedness of the book. -/
lemma sortedBook_place_order {b : OrderBook} (o : Order) (h : sortedBook b) :
    sortedBook (place_order b o) := by
  rcases h with ⟨hb, hs⟩
  match ho : o.side with
  | Side.buy =>
    simp only [place_order, ho]
    exact ⟨buysSorted_mergeSort _, hs⟩
  | Side.sell =>
    simp only [place_order, ho]
    exact ⟨hb, sellsSorted_mergeSort _⟩

/-- `match_orders` preserves price-sortedness of the book. -/
lemma sortedBook_match_orders {b : OrderBook} (h : sortedBook b) :
    sortedBook (match_orders b).1 := by
  rcases sorted_match_orders_aux b.buys b.sells h.1 h.2 with ⟨h1, h2⟩
  exact ⟨h1, h2⟩

/-- Every book reachable from the initial book by `place_order` and
`match_orders` calls is price-sorted. -/
lemma sortedBook_applyEvents (es : List Event) (b : OrderBook) (h : sortedBook b) :
    sortedBook (applyEvents es b) := by
  induction es generalizing b with
  | nil => exact h
  | cons e es ih =>
    match e with
    | Event.placeEv o => exact ih _ (sortedBook_place_order o h)
    | Event.matchEv => exact ih _ (sortedBook_match_orders h)

/-! ### Base-case evaluation lemmas -/

@[simp] lemma match_orders_aux_nil_left (sells : List Order) :
    match_orders_aux [] sells = ([], sells, []) := by
  apply match_orders_aux_no_cross
  rfl

@[simp] lemma match_orders_aux_nil_right (buys : List Order) :
    match_orders_aux buys [] = (buys, [], []) := by
  apply match_orders_aux_no_cross
  cases buys <;> rfl

/-! ### Claim theorems -/

/-- Claim C1: no crossed book at rest.  For every book state, immediately
after `match_orders` returns it is false that both sides are non-empty with
the front bid price at least the front ask price.  (This holds for every
book state, hence after any sequence of `place_order`/`match_orders`
calls.) -/
theorem no_crossed_book_after_match (b : OrderBook) :
    crossedB (match_orders b).1.buys (match_orders b).1.sells = false := by
  have h := crossedB_match_orders_aux b.buys b.sells
  simpa [match_orders] using h

/-- Claim C2: reference price update rule.  If `match_orders` emits no
trades the reference price is exactly unchanged; if it emits trades, the
new reference price is the arithmetic mean of the prices of exactly the
trades emitted by that call (it depends on nothing else). -/
theorem reference_price_update_rule (b : OrderBook) :
    (match_orders b).1.mid_price =
      if (match_orders b).2 = [] then b.mid_price
      else ((match_orders b).2.map Trade.price).sum / ((match_orders b).2.length : ℚ) := by
  simp [match_orders]

/-- Claim C3: per-trade matching step.  The `i`-th trade emitted by
`match_orders` has price `(bestBid.price + bestAsk.price) / 2` and size
`min bestBid.size bestAsk.size` where `bestBid`/`bestAsk` are the fronts of
the book after `i` loop iterations (the moment the trade is generated), the
book crosses at that moment; and the total size removed from the book over
the call equals twice the sum of the emitted trade sizes (each trade
consumes equal size from both sides). -/
theorem per_trade_matching_step (b : OrderBook) :
    (∀ (i : Nat) (tr : Trade),
      (match_orders b).2[i]? = some tr →
      ∃ (bb : Order) (bs : List Order) (ss : Order) (sl : List Order),
        loopStep^[i] (b.buys, b.sells) = (bb :: bs, ss :: sl) ∧
        ss.price ≤ bb.price ∧
        tr = { price := (bb.price + ss.price) / 2, size := min bb.size ss.size })
    ∧ sumSizes b.buys + sumSizes b.sells
        = sumSizes (match_orders b).1.buys + sumSizes (match_orders b).1.sells
          + 2 * tradeSizeSum (match_orders b).2 := by
  constructor
  · intro i tr htr
    exact trades_iterate b.buys b.sells i tr (by simpa [match_orders] using htr)
  · have h := sumSizes_match_orders_aux b.buys b.sells
    simp only [match_orders]
    linarith [h.1, h.2]

/-- Witness for C3 at a concrete crossing book: the single emitted trade is
the midpoint/min trade of the two front orders. -/
theorem per_trade_matching_step_witness :
    (match_orders
        { buys := [{ price := 101, size := 5, side := Side.buy }],
          sells := [{ price := 99, size := 8, side := Side.sell }],
          mid_price := 100 }).2[0]? = some { price := 100, size := 5 }
    ∧ ∃ (bb : Order) (bs : List Order) (ss : Order) (sl : List Order),
        loopStep^[0]
            (({ buys := [{ price := 101, size := 5, side := Side.buy }],
                sells := [{ price := 99, size := 8, side := Side.sell }],
                mid_price := 100 } : OrderBook).buys,
             ({ buys := [{ price := 101, size := 5, side := Side.buy }],
                sells := [{ price := 99, size := 8, side := Side.sell }],
                mid_price := 100 } : OrderBook).sells) = (bb :: bs, ss :: sl) ∧
        ss.price ≤ bb.price ∧
        ({ price := 100, size := 5 } : Trade)
          = { price := (bb.price + ss.price) / 2, size := min bb.size ss.size } :=
  ⟨by norm_num [match_orders, match_orders_aux],
   (per_trade_matching_step _).1 0 _ (by norm_num [match_orders, match_orders_aux])⟩

/-- Claim C4 counterexample: with an accepted negative-size order resting,
a `match_orders` call mutates the opposite resting order's size upward
(from 5 to 8), refuting "each resting order's size only ever decreases". -/
theorem order_size_never_increases_cex :
    (match_orders
        { buys := [{ price := 101, size := -3, side := Side.buy }],
          sells := [{ price := 99, size := 5, side := Side.sell }],
          mid_price := 100 }).1.sells
      = [{ price := 99, size := 8, side := Side.sell }]
    ∧ (5 : ℚ) < 8 := by
  constructor
  · norm_num [match_orders, match_orders_aux]
  · norm_num

/-- Claim C4 (amended): in each iteration of the matching loop, no order's
size is ever mutated below zero, the front orders are removed exactly when
their decremented size is zero (and the rest of each side is untouched);
and provided the two front sizes are nonnegative, the mutation never
increases a size. -/
theorem order_size_invariant_during_matching (bb ss : Order) (bs sl : List Order)
    (h : ss.price ≤ bb.price) :
    (0 ≤ bb.size - min bb.size ss.size ∧ 0 ≤ ss.size - min bb.size ss.size)
    ∧ ((loopStep (bb :: bs, ss :: sl)).1
        = if bb.size - min bb.size ss.size = 0 then bs
          else { bb with size := bb.size - min bb.size ss.size } :: bs)
    ∧ ((loopStep (bb :: bs, ss :: sl)).2
        = if ss.size - min bb.size ss.size = 0 then sl
          else { ss with size := ss.size - min bb.size ss.size } :: sl)
    ∧ (0 ≤ bb.size → 0 ≤ ss.size →
        bb.size - min bb.size ss.size ≤ bb.size
          ∧ ss.size - min bb.size ss.size ≤ ss.size) := by
  have hb0 : 0 ≤ bb.size - min bb.size ss.size := by
    have := min_le_left bb.size ss.size
    linarith
  have hs0 : 0 ≤ ss.size - min bb.size ss.size := by
    have := min_le_right bb.size ss.size
    linarith
  refine ⟨⟨hb0, hs0⟩, ?_, ?_, ?_⟩
  · rw [loopStep_cross bs sl h]
    have hiff : (bb.size - min bb.size ss.size ≤ 0) ↔ (bb.size - min bb.size ss.size = 0) :=
      ⟨fun hle => le_antisymm hle hb0, fun he => le_of_eq he⟩
    exact if_congr hiff rfl rfl
  · rw [loopStep_cross bs sl h]
    have hiff : (ss.size - min bb.size ss.size ≤ 0) ↔ (ss.size - min bb.size ss.size = 0) :=
      ⟨fun hle => le_antisymm hle hs0, fun he => le_of_eq he⟩
    exact if_congr hiff rfl rfl
  · intro hbb hss
    have hmin : 0 ≤ min bb.size ss.size := le_min hbb hss
    constructor <;> linarith

/-- Witness for the amended C4 at concrete crossing front orders. -/
theorem order_size_invariant_during_matching_witness :
    ((99 : ℚ) ≤ 101)
    ∧ ((0 ≤ (5 : ℚ) - min (5 : ℚ) 8 ∧ 0 ≤ (8 : ℚ) - min (5 : ℚ) 8)
    ∧ ((loopStep ([{ price := 101, size := 5, side := Side.buy }],
                  [{ price := 99, size := 8, side := Side.sell }])).1
        = if (5 : ℚ) - min (5 : ℚ) 8 = 0 then []
          else [{ price := 101, size := (5 : ℚ) - min (5 : ℚ) 8, side := Side.buy }])
    ∧ ((loopStep ([{ price := 101, size := 5, side := Side.buy }],
                  [{ price := 99, size := 8, side := Side.sell }])).2
        = if (8 : ℚ) - min (5 : ℚ) 8 = 0 then []
          else [{ price := 99, size := (8 : ℚ) - min (5 : ℚ) 8, side := Side.sell }])
    ∧ (0 ≤ (5 : ℚ) → 0 ≤ (8 : ℚ) →
        (5 : ℚ) - min (5 : ℚ) 8 ≤ 5 ∧ (8 : ℚ) - min (5 : ℚ) 8 ≤ 8)) :=
  ⟨by norm_num,
   order_size_invariant_during_matching
     { price := 101, size := 5, side := Side.buy }
     { price := 99, size := 8, side := Side.sell } [] [] (by norm_num)⟩

/-- Claim C5: concrete partial-fill scenario.  From the initial book,
place Buy(101, 5) and Sell(99, 8), then match: exactly one trade
`{price 100, size 5}`, asks left with one order `{price 99, size 3}`, bids
empty, reference price 100. -/
theorem concrete_partial_fill_scenario :
    match_orders
        (place_order
          (place_order OrderBook.init { price := 101, size := 5, side := Side.buy })
          { price := 99, size := 8, side := Side.sell })
      = ({ buys := [], sells := [{ price := 99, size := 3, side := Side.sell }],
           mid_price := 100 },
         [{ price := 100, size := 5 }]) := by
  norm_num [OrderBook.init, place_order, match_orders, match_orders_aux]

/-- Claim C6: termination of the matching loop.  Whenever the loop guard
holds, one iteration strictly decreases the total number of resting orders
(so the loop, embedded as the total function `match_orders_aux`,
terminates); consequently the number of trades emitted by one
`match_orders` call is bounded by the number of resting orders. -/
theorem match_loop_terminates :
    (∀ (bb ss : Order) (bs sl : List Order), ss.price ≤ bb.price →
      (loopStep (bb :: bs, ss :: sl)).1.length + (loopStep (bb :: bs, ss :: sl)).2.length
        < (bb :: bs).length + (ss :: sl).length)
    ∧ (∀ b : OrderBook, (match_orders b).2.length ≤ b.buys.length + b.sells.length) := by
  constructor
  · intro bb ss bs sl h
    rw [loopStep_cross bs sl h]
    have key := sub_min_left_right bb.size ss.size
    rcases key with hk | hk
    · rw [if_pos hk]
      dsimp only
      split <;> simp only [List.length_cons] <;> omega
    · rw [if_pos hk]
      dsimp only
      split <;> simp only [List.length_cons] <;> omega
  · intro b
    have h := trades_length_match_orders_aux b.buys b.sells
    simpa [match_orders] using h

/-- Witness for C6 at concrete crossing front orders. -/
theorem match_loop_terminates_witness :
    ((99 : ℚ) ≤ 101)
    ∧ (loopStep ([{ price := 101, size := 5, side := Side.buy }],
                 [{ price := 99, size := 8, side := Side.sell }])).1.length
        + (loopStep ([{ price := 101, size := 5, side := Side.buy }],
                     [{ price := 99, size := 8, side := Side.sell }])).2.length
        < ([{ price := 101, size := 5, side := Side.buy }] : List Order).length
          + ([{ price := 99, size := 8, side := Side.sell }] : List Order).length :=
  ⟨by norm_num,
   match_loop_terminates.1
     { price := 101, size := 5, side := Side.buy }
     { price := 99, size := 8, side := Side.sell } [] [] (by norm_num)⟩

/-- Claim C7: ordering invariant with price-time priority.  Every book
reachable from the initial book by `place_order`/`match_orders` calls has
its bids sorted by descending price and its asks by ascending price; and
each `place_order` preserves the relative arrival order of equal-priced
orders (the sort is stable): the sequence of resting orders at any fixed
price is the old sequence with the new order appended, on the placed
side. -/
theorem ordering_invariant_price_time :
    (∀ es : List Event, sortedBook (applyEvents es OrderBook.init))
    ∧ (∀ (b : OrderBook) (o : Order) (p : ℚ), o.side = Side.buy →
        (place_order b o).buys.filter (fun x => decide (x.price = p))
          = b.buys.filter (fun x => decide (x.price = p))
            ++ if o.price = p then [o] else [])
    ∧ (∀ (b : OrderBook) (o : Order) (p : ℚ), o.side = Side.sell →
        (place_order b o).sells.filter (fun x => decide (x.price = p))
          = b.sells.filter (fun x => decide (x.price = p))
            ++ if o.price = p then [o] else []) := by
  refine ⟨?_, ?_, ?_⟩
  · intro es
    exact sortedBook_applyEvents es _ ⟨List.Pairwise.nil, List.Pairwise.nil⟩
  · intro b o p ho
    simp only [place_order, ho]
    rw [mergeSort_buyLE_filter_price, List.filter_append]
    congr 1
    simp only [List.filter]
    split
    · rename_i hdec
      rw [if_pos (of_decide_eq_true hdec)]
    · rename_i hdec
      rw [if_neg (of_decide_eq_false hdec)]
  · intro b o p ho
    simp only [place_order, ho]
    rw [mergeSort_sellLE_filter_price, List.filter_append]
    congr 1
    simp only [List.filter]
    split
    · rename_i hdec
      rw [if_pos (of_decide_eq_true hdec)]
    · rename_i hdec
      rw [if_neg (of_decide_eq_false hdec)]

/-- Witness for C7: stability of a concrete buy placement at its own price
level. -/
theorem ordering_invariant_price_time_witness :
    ({ price := 100, size := 7, side := Side.buy } : Order).side = Side.buy
    ∧ (place_order
          { buys := [{ price := 100, size := 2, side := Side.buy }], sells := [],
            mid_price := 100 }
          { price := 100, size := 7, side := Side.buy }).buys.filter
            (fun x => decide (x.price = (100 : ℚ)))
        = ({ buys := [{ price := 100, size := 2, side := Side.buy }], sells := [],
             mid_price := 100 } : OrderBook).buys.filter
              (fun x => decide (x.price = (100 : ℚ)))
          ++ if ({ price := 100, size := 7, side := Side.buy } : Order).price = (100 : ℚ)
             then [{ price := 100, size := 7, side := Side.buy }] else [] :=
  ⟨rfl,
   ordering_invariant_price_time.2.1
     { buys := [{ price := 100, size := 2, side := Side.buy }], sells := [],
       mid_price := 100 }
     { price := 100, size := 7, side := Side.buy } 100 rfl⟩

/-- Claim C8: no-op match is a frame-preserving identity.  On any book with
no crossing (bids empty, asks empty, or front bid price < front ask price),
`match_orders` returns the empty trade list and the book completely
unchanged. -/
theorem no_op_match_identity (b : OrderBook)
    (h : crossedB b.buys b.sells = false) :
    match_orders b = (b, []) := by
  cases b with
  | mk buys sells mid =>
    have h2 : match_orders_aux buys sells = (buys, sells, []) :=
      match_orders_aux_no_cross (by simpa using h)
    simp [match_orders, h2]

/-- Witness for C8 at a concrete non-crossing book. -/
theorem no_op_match_identity_witness :
    crossedB
        ({ buys := [{ price := 99, size := 5, side := Side.buy }],
           sells := [{ price := 101, size := 5, side := Side.sell }],
           mid_price := 100 } : OrderBook).buys
        ({ buys := [{ price := 99, size := 5, side := Side.buy }],
           sells := [{ price := 101, size := 5, side := Side.sell }],
           mid_price := 100 } : OrderBook).sells = false
    ∧ match_orders
        { buys := [{ price := 99, size := 5, side := Side.buy }],
          sells := [{ price := 101, size := 5, side := Side.sell }],
          mid_price := 100 }
      = ({ buys := [{ price := 99, size := 5, side := Side.buy }],
           sells := [{ price := 101, size := 5, side := Side.sell }],
           mid_price := 100 }, []) :=
  ⟨by norm_num [crossedB],
   no_op_match_identity _ (by norm_num [crossedB])⟩

/-- Claim C9: error taxonomy.  Constructing an order succeeds exactly when
the side tag is one of `"buy"`/`"sell"`; every price and size (including
zero and negative sizes) is accepted without validation.  (`place_order`
and `match_orders` are embedded as total functions: they return a value on
every book state and never raise.) -/
theorem order_construction_error_taxonomy (price size : ℚ) (side : String) :
    (∃ o : Order, mkOrder price size side = Except.ok o)
      ↔ (side = "buy" ∨ side = "sell") := by
  by_cases h1 : side = "buy"
  · simp [mkOrder, h1]
  · by_cases h2 : side = "sell"
    · simp [mkOrder, h1, h2]
    · simp [mkOrder, h1, h2]

/-- Claim C10: implicit edge case — non-positive-size orders trade.  With a
resting bid of size `-3` crossing a resting ask of size `5`, `match_orders`
emits one trade of negative size `-3`, the ask's size increases by `|−3|`
to `8`, the negative-size bid is removed, and the trade's price (100) still
becomes the reference price. -/
theorem negative_size_order_trades :
    match_orders
        { buys := [{ price := 101, size := -3, side := Side.buy }],
          sells := [{ price := 99, size := 5, side := Side.sell }],
          mid_price := 100 }
      = ({ buys := [], sells := [{ price := 99, size := 8, side := Side.sell }],
           mid_price := 100 },
         [{ price := 100, size := -3 }])
    ∧ ((-3 : ℚ) < 0)
    ∧ ((8 : ℚ) = 5 + |(-3 : ℚ)|) := by
  refine ⟨?_, by norm_num, by norm_num⟩
  norm_num [match_orders, match_orders_aux]

end SyntheticMarket
